import Mathlib

/-!
Verification of the page layer of an embedded B-tree key-value store
(source: src/page.rs). The file embeds the page data model, the typed
element views, and the freelist sorted-merge routine, and proves the
specified properties about them.

Conventions of the embedding:
* `PageId` (`u64` in the source) is modelled as `Nat`; the code only
  compares and copies page ids, so no wrap-around arithmetic occurs.
* Byte buffers are `List Nat`.
* Every fallible operation of the source (slice indexing, slice writes,
  `copy_from_slice`) returns `Option`: `none` is the Rust panic.
* The in-place merge loop `merge_page_ids` is modelled by explicit state
  passing: the destination buffer `dst` and the indices `i`, `j`,
  `counter` are threaded through a recursive function `mergeLoop` whose
  guard is exactly the loop condition `i < a.len() && j < b.len()`.
-/

/-- `pub type PageId = u64;` -/
abbrev PageId := Nat

/-- `BranchPageElement { pos, key_size, page_id }` from src/page.rs. -/
structure BranchPageElement where
  pos : Nat
  key_size : Nat
  page_id : PageId
deriving DecidableEq

/-- `LeafPageElement { flag, pos, key_size, value_size, page_id }` from src/page.rs. -/
structure LeafPageElement where
  flag : Nat
  pos : Nat
  key_size : Nat
  value_size : Nat
  page_id : PageId
deriving DecidableEq

/-- The page header `Page { page_id, flag, count, overflow, body_ptr }`.
`body_ptr` points at the page body; the source reinterprets it either as an
array of `LeafPageElement` or as an array of `BranchPageElement` depending on
the page kind.  The embedding carries both denotations of `body_ptr` as
lists; a page is *valid* for a kind when the corresponding list has length
`count`. -/
structure Page where
  page_id : PageId
  flag : Nat
  count : Nat
  overflow : Nat
  leafBody : List LeafPageElement
  branchBody : List BranchPageElement

/-- `Page::leaf_page_element(idx)`: index into the leaf-element array;
out-of-range indexing is a panic, hence `Option`. -/
def Page.leaf_page_element (p : Page) (idx : Nat) : Option LeafPageElement :=
  p.leafBody.get? idx

/-- `Page::leaf_page_elements()`: `None` when `count == 0`, otherwise the
whole leaf-element array. -/
def Page.leaf_page_elements (p : Page) : Option (List LeafPageElement) :=
  if p.count = 0 then none else some p.leafBody

/-- `Page::branch_page_element(idx)`. -/
def Page.branch_page_element (p : Page) (idx : Nat) : Option BranchPageElement :=
  p.branchBody.get? idx

/-- `Page::branch_page_elements()`: `None` when `count == 0`, otherwise the
whole branch-element array. -/
def Page.branch_page_elements (p : Page) : Option (List BranchPageElement) :=
  if p.count = 0 then none else some p.branchBody

/-- Rust slice indexing `&buf[lo..hi]`: panics unless `lo ≤ hi ≤ buf.len()`. -/
def sliceRange (buf : List Nat) (lo hi : Nat) : Option (List Nat) :=
  if lo ≤ hi ∧ hi ≤ buf.length then some ((buf.take hi).drop lo) else none

/-- `LeafPageElement::key()`: the source reinterprets the element's own
address as a byte buffer and returns `&buf[pos .. pos + key_size]`; `buf`
here is that byte view, whose index 0 is the start of the element's own
record. -/
def LeafPageElement.key (e : LeafPageElement) (buf : List Nat) : Option (List Nat) :=
  sliceRange buf e.pos (e.pos + e.key_size)

/-- `LeafPageElement::value()`: returns `&buf[pos .. pos + value_size]` over
the same byte view starting at the element's own record. -/
def LeafPageElement.value (e : LeafPageElement) (buf : List Nat) : Option (List Nat) :=
  sliceRange buf e.pos (e.pos + e.value_size)

/-- Modelled from the spec: the writer that stores a key or value of length
`L` at a chosen offset of the element's byte view ("writing a key/value of
length L at a chosen offset"); the write path is outside this repository.
It overwrites `buf[off .. off + data.len()]` with `data`, failing when the
span does not fit. -/
def writeBytes (buf : List Nat) (off : Nat) (data : List Nat) : Option (List Nat) :=
  if off + data.length ≤ buf.length then
    some (buf.take off ++ data ++ buf.drop (off + data.length))
  else none

/-- Rust `dst[k] = v`: panics when `k` is out of range. -/
def writeAt (dst : List PageId) (k : Nat) (v : PageId) : Option (List PageId) :=
  if k < dst.length then some (dst.set k v) else none

/-- Rust `dst[..src.len()].copy_from_slice(&src)`: panics when the prefix
slice of `dst` is shorter than `src`. -/
def copyAtStart (dst src : List PageId) : Option (List PageId) :=
  if src.length ≤ dst.length then some (src ++ dst.drop src.length) else none

/-- Rust `dst[counter..].copy_from_slice(&src)`: panics when `counter`
exceeds `dst.len()` or the two slice lengths differ. -/
def copyFromIdx (dst : List PageId) (counter : Nat) (src : List PageId) :
    Option (List PageId) :=
  if counter ≤ dst.length ∧ dst.length - counter = src.length then
    some (dst.take counter ++ src)
  else none

/-- The `while i < a.len() && j < b.len()` loop of `merge_page_ids`, followed
by the tail copy (`if i == a.len()` copy the rest of `b`, else the rest of
`a`). -/
def mergeLoop (a b dst : List PageId) (i j counter : Nat) : Option (List PageId) :=
  if h : i < a.length ∧ j < b.length then
    if a.get ⟨i, h.1⟩ < b.get ⟨j, h.2⟩ then
      match writeAt dst counter (a.get ⟨i, h.1⟩) with
      | some dst2 => mergeLoop a b dst2 (i + 1) j (counter + 1)
      | none => none
    else
      match writeAt dst counter (b.get ⟨j, h.2⟩) with
      | some dst2 => mergeLoop a b dst2 i (j + 1) (counter + 1)
      | none => none
  else if i = a.length then
    copyFromIdx dst counter (b.drop j)
  else
    copyFromIdx dst counter (a.drop i)
termination_by (a.length - i) + (b.length - j)
decreasing_by
  all_goals omega

/-- `fn merge_page_ids(dst: &mut [PageId], a: &Vec<PageId>, b: &Vec<PageId>)`
from src/page.rs: early copies when one input is empty, otherwise the
two-pointer merge loop starting at `i = j = counter = 0`. -/
def merge_page_ids (dst a b : List PageId) : Option (List PageId) :=
  if a.isEmpty then copyAtStart dst b
  else if b.isEmpty then copyAtStart dst a
  else mergeLoop a b dst 0 0 0

/-- The `for i in 0..(a.len() + b.len()) { merged.insert(i, 0); }` loop of
`merge`: builds the zero-filled output buffer by repeated `Vec::insert`. -/
def initZeros (n : Nat) : List PageId :=
  (List.range n).foldl (fun acc i => acc.insertIdx i 0) []

/-- `fn merge(a: &Vec<PageId>, b: &Vec<PageId>) -> Vec<PageId>` from
src/page.rs. -/
def merge (a b : List PageId) : Option (List PageId) :=
  if a.isEmpty then some b
  else if b.isEmpty then some a
  else merge_page_ids (initZeros (a.length + b.length)) a b

/-- Functional model of the merge loop: the standard recursive two-list
merge with the source's tie policy (`if a[i] < b[j]` take `a`, otherwise
take `b`, so `b` is preferred on equality). -/
def mergeRec : List PageId → List PageId → List PageId
  | [], bs => bs
  | as, [] => as
  | a :: as, b :: bs =>
      if a < b then a :: mergeRec as (b :: bs) else b :: mergeRec (a :: as) bs
termination_by as bs => as.length + bs.length

/-- Modelled from the spec: the tie-break policy the spec describes for
`merge_page_ids`, "prefer `a`'s element on equality" — i.e. the same
two-pointer merge but advancing `a` whenever `a[i] ≤ b[j]`.  Used only to
compare the documented policy against the implemented one. -/
def mergeTieBreakA : List PageId → List PageId → List PageId
  | [], bs => bs
  | as, [] => as
  | a :: as, b :: bs =>
      if a ≤ b then a :: mergeTieBreakA as (b :: bs) else b :: mergeTieBreakA (a :: as) bs
termination_by as bs => as.length + bs.length

theorem mergeRec_nil_right (as : List PageId) : mergeRec as [] = as := by
  cases as <;> simp [mergeRec]

theorem take_succ_set (l : List PageId) (k : Nat) (v : PageId) (h : k < l.length) :
    (l.set k v).take (k + 1) = l.take k ++ [v] := by
  induction l generalizing k with
  | nil => simp at h
  | cons x xs ih =>
    cases k with
    | zero => simp
    | succ k =>
      have h2 : k < xs.length := by simpa using h
      simp [ih k h2]

theorem mergeLoop_spec (a b : List PageId) :
    ∀ (n i j : Nat) (dst : List PageId),
      a.length - i + (b.length - j) ≤ n →
      i ≤ a.length → j ≤ b.length →
      dst.length = a.length + b.length →
      mergeLoop a b dst i j (i + j) =
        some (dst.take (i + j) ++ mergeRec (a.drop i) (b.drop j)) := by
  intro n
  induction n with
  | zero =>
    intro i j dst hn hi hj hd
    have hia : i = a.length := by omega
    have hjb : j = b.length := by omega
    rw [mergeLoop.eq_def, dif_neg (by omega), if_pos hia]
    simp [copyFromIdx, hia, hjb, hd, List.drop_length, mergeRec]
  | succ n ih =>
    intro i j dst hn hi hj hd
    rw [mergeLoop.eq_def]
    by_cases hij : i < a.length ∧ j < b.length
    · rw [dif_pos hij]
      obtain ⟨hi2, hj2⟩ := hij
      have hc : i + j < dst.length := by omega
      have hda : a.drop i = a.get ⟨i, hi2⟩ :: a.drop (i + 1) := List.drop_eq_get_cons hi2
      have hdb : b.drop j = b.get ⟨j, hj2⟩ :: b.drop (j + 1) := List.drop_eq_get_cons hj2
      by_cases hab : a.get ⟨i, hi2⟩ < b.get ⟨j, hj2⟩
      · rw [if_pos hab]
        have hw : writeAt dst (i + j) (a.get ⟨i, hi2⟩) =
            some (dst.set (i + j) (a.get ⟨i, hi2⟩)) := by
          simp [writeAt, hc]
        simp only [hw]
        have hstep : (i + j) + 1 = (i + 1) + j := by omega
        rw [hstep, ih (i + 1) j _ (by omega) (by omega) hj (by simp [hd])]
        have hback : (i + 1) + j = (i + j) + 1 := by omega
        rw [hback, take_succ_set dst (i + j) _ hc]
        rw [hda, hdb]
        simp only [mergeRec, if_pos hab]
        simp
      · rw [if_neg hab]
        have hw : writeAt dst (i + j) (b.get ⟨j, hj2⟩) =
            some (dst.set (i + j) (b.get ⟨j, hj2⟩)) := by
          simp [writeAt, hc]
        simp only [hw]
        have hstep : (i + j) + 1 = i + (j + 1) := by omega
        rw [hstep, ih i (j + 1) _ (by omega) hi (by omega) (by simp [hd])]
        have hback : i + (j + 1) = (i + j) + 1 := by omega
        rw [hback, take_succ_set dst (i + j) _ hc]
        rw [hda, hdb]
        simp only [mergeRec, if_neg hab]
        simp
    · rw [dif_neg hij]
      by_cases hia : i = a.length
      · rw [if_pos hia]
        simp only [copyFromIdx, List.length_drop]
        rw [if_pos (by omega)]
        rw [hia, List.drop_length]
        simp [mergeRec]
      · rw [if_neg hia]
        have hjb : j = b.length := by omega
        simp only [copyFromIdx, List.length_drop]
        rw [if_pos (by omega)]
        rw [hjb, List.drop_length]
        simp [mergeRec_nil_right]

theorem initZeros_eq_replicate (n : Nat) : initZeros n = List.replicate n 0 := by
  induction n with
  | zero => simp [initZeros]
  | succ n ih =>
    unfold initZeros at ih ⊢
    rw [List.range_succ, List.foldl_append, ih]
    simp only [List.foldl_cons, List.foldl_nil]
    have hins := List.insertIdx_length_self (List.replicate n (0 : PageId)) 0
    rw [List.length_replicate] at hins
    rw [hins, List.replicate_add]
    simp

theorem initZeros_length (n : Nat) : (initZeros n).length = n := by
  rw [initZeros_eq_replicate]; exact List.length_replicate n 0

theorem merge_page_ids_spec (dst a b : List PageId)
    (hd : dst.length = a.length + b.length) :
    merge_page_ids dst a b = some (mergeRec a b) := by
  unfold merge_page_ids
  by_cases hae : a.isEmpty
  · have ha : a = [] := List.isEmpty_iff.mp hae
    subst ha
    rw [if_pos hae]
    simp at hd
    simp [copyAtStart, hd, List.drop_length, mergeRec]
  · rw [if_neg hae]
    by_cases hbe : b.isEmpty
    · have hb : b = [] := List.isEmpty_iff.mp hbe
      subst hb
      rw [if_pos hbe]
      simp at hd
      simp [copyAtStart, hd, List.drop_length, mergeRec_nil_right]
    · rw [if_neg hbe]
      have := mergeLoop_spec a b (a.length + b.length) 0 0 dst (by omega)
        (by omega) (by omega) hd
      simpa using this

theorem merge_eq (a b : List PageId) : merge a b = some (mergeRec a b) := by
  unfold merge
  by_cases hae : a.isEmpty
  · have ha : a = [] := List.isEmpty_iff.mp hae
    subst ha
    simp [mergeRec]
  · rw [if_neg hae]
    by_cases hbe : b.isEmpty
    · have hb : b = [] := List.isEmpty_iff.mp hbe
      subst hb
      simp [mergeRec_nil_right]
    · rw [if_neg hbe]
      exact merge_page_ids_spec _ a b (initZeros_length _)

theorem mergeRec_length (a b : List PageId) :
    (mergeRec a b).length = a.length + b.length := by
  induction a, b using mergeRec.induct with
  | case1 bs => simp [mergeRec]
  | case2 as h => simp [mergeRec_nil_right]
  | case3 x as y bs hab ih =>
    simp only [mergeRec, if_pos hab]
    simp at ih ⊢
    omega
  | case4 x as y bs hab ih =>
    simp only [mergeRec, if_neg hab]
    simp at ih ⊢
    omega

theorem mergeRec_perm (a b : List PageId) : (mergeRec a b).Perm (a ++ b) := by
  induction a, b using mergeRec.induct with
  | case1 bs => simp [mergeRec]
  | case2 as h => simp [mergeRec_nil_right]
  | case3 x as y bs hab ih =>
    simp only [mergeRec, if_pos hab]
    simpa using ih.cons x
  | case4 x as y bs hab ih =>
    simp only [mergeRec, if_neg hab]
    exact (ih.cons y).trans List.perm_middle.symm

theorem mergeRec_mem (x : PageId) (a b : List PageId) :
    x ∈ mergeRec a b ↔ x ∈ a ∨ x ∈ b := by
  rw [(mergeRec_perm a b).mem_iff]
  exact List.mem_append

theorem mergeRec_sorted : ∀ a b : List PageId,
    List.Sorted (· < ·) a → List.Sorted (· < ·) b → (∀ x, x ∈ a → x ∉ b) →
    List.Sorted (· < ·) (mergeRec a b) := by
  intro a b
  induction a, b using mergeRec.induct with
  | case1 bs => intro _ hb _; simpa [mergeRec] using hb
  | case2 as h => intro ha _ _; simpa [mergeRec_nil_right] using ha
  | case3 x as y bs hab ih =>
    intro ha hb hdisj
    obtain ⟨ha1, ha2⟩ := List.sorted_cons.mp ha
    obtain ⟨hb1, hb2⟩ := List.sorted_cons.mp hb
    simp only [mergeRec, if_pos hab]
    refine List.sorted_cons.mpr ⟨?_, ih ha2 hb (fun z hz => hdisj z (List.mem_cons_of_mem x hz))⟩
    intro z hz
    rcases (mergeRec_mem z as (y :: bs)).mp hz with hza | hzb
    · exact ha1 z hza
    · rcases List.mem_cons.mp hzb with hzy | hzbs
      · exact hzy ▸ hab
      · exact lt_trans hab (hb1 z hzbs)
  | case4 x as y bs hab ih =>
    intro ha hb hdisj
    obtain ⟨ha1, ha2⟩ := List.sorted_cons.mp ha
    obtain ⟨hb1, hb2⟩ := List.sorted_cons.mp hb
    have hne : x ≠ y := by
      intro he
      exact hdisj x (List.mem_cons_self x as) (he ▸ List.mem_cons_self y bs)
    have hxy : y < x := Nat.lt_of_le_of_ne (Nat.le_of_not_lt hab) (Ne.symm hne)
    simp only [mergeRec, if_neg hab]
    refine List.sorted_cons.mpr ⟨?_, ih ha hb2 (fun z hz hzbs =>
      hdisj z hz (List.mem_cons_of_mem y hzbs))⟩
    intro z hz
    rcases (mergeRec_mem z (x :: as) bs).mp hz with hza | hzbs
    · rcases List.mem_cons.mp hza with hzx | hzas
      · exact hzx ▸ hxy
      · exact lt_trans hxy (ha1 z hzas)
    · exact hb1 z hzbs

theorem mid_take_drop (A d r : List Nat) :
    ((A ++ d ++ r).take (A.length + d.length)).drop A.length = d := by
  have h1 : A.length + d.length = (A ++ d).length := (List.length_append A d).symm
  rw [h1, List.take_left, List.drop_left]

theorem slice_after_write (buf data buf2 : List Nat) (off : Nat)
    (hw : writeBytes buf off data = some buf2) :
    sliceRange buf2 off (off + data.length) = some data := by
  unfold writeBytes at hw
  by_cases h : off + data.length ≤ buf.length
  · rw [if_pos h] at hw
    injection hw with hw
    subst hw
    have hA : (buf.take off).length = off := by
      rw [List.length_take]
      omega
    have hlen2 :
        (buf.take off ++ data ++ buf.drop (off + data.length)).length = buf.length := by
      simp only [List.length_append, List.length_drop, hA]
      omega
    have hcond : off ≤ off + data.length ∧
        off + data.length ≤ (buf.take off ++ data ++ buf.drop (off + data.length)).length := by
      rw [hlen2]
      omega
    unfold sliceRange
    rw [if_pos hcond]
    congr 1
    have hmid := mid_take_drop (buf.take off) data (buf.drop (off + data.length))
    rw [hA] at hmid
    exact hmid
  · rw [if_neg h] at hw
    exact Option.noConfusion hw

/-- C1: for strictly ascending inputs `a` and `b` that are disjoint,
`merge(a, b)` returns (without panicking) the strictly ascending sequence
containing exactly the elements of `a` and `b`, of length
`len(a) + len(b)`. -/
theorem merge_sorted_disjoint_spec (a b : List PageId)
    (ha : List.Sorted (· < ·) a) (hb : List.Sorted (· < ·) b)
    (hdisj : ∀ x, x ∈ a → x ∉ b) :
    ∃ c, merge a b = some c ∧ List.Sorted (· < ·) c ∧
      c.length = a.length + b.length ∧ (∀ x, x ∈ c ↔ x ∈ a ∨ x ∈ b) :=
  ⟨mergeRec a b, merge_eq a b, mergeRec_sorted a b ha hb hdisj, mergeRec_length a b,
    fun x => mergeRec_mem x a b⟩

/-- Witness for C1 at `a = [2, 7]`, `b = [1, 9]`. -/
theorem merge_sorted_disjoint_spec_witness :
    List.Sorted (· < ·) ([2, 7] : List PageId) ∧
      List.Sorted (· < ·) ([1, 9] : List PageId) ∧
      (∀ x, x ∈ ([2, 7] : List PageId) → x ∉ ([1, 9] : List PageId)) ∧
      ∃ c, merge [2, 7] [1, 9] = some c ∧ List.Sorted (· < ·) c ∧
        c.length = ([2, 7] : List PageId).length + ([1, 9] : List PageId).length ∧
        (∀ x, x ∈ c ↔ x ∈ ([2, 7] : List PageId) ∨ x ∈ ([1, 9] : List PageId)) :=
  ⟨by decide, by decide, by decide,
    merge_sorted_disjoint_spec [2, 7] [1, 9] (by decide) (by decide) (by decide)⟩

/-- C4 (counterexample): the implementation does not take `a`'s element first
on equality. On `a = [5, 1]`, `b = [5, 9]` (equal current elements, so the
disjointness precondition is violated) the code produces `[5, 5, 1, 9]`,
taking `b`'s 5 first, whereas the prefer-`a` policy `mergeTieBreakA` yields
`[5, 1, 5, 9]`. -/
theorem merge_tie_break_counterexample :
    merge [5, 1] [5, 9] = some [5, 5, 1, 9] ∧
    mergeTieBreakA [5, 1] [5, 9] = [5, 1, 5, 9] ∧
    merge [5, 1] [5, 9] ≠ some (mergeTieBreakA [5, 1] [5, 9]) := by
  refine ⟨?_, ?_, ?_⟩
  · rw [merge_eq]
    simp [mergeRec]
  · simp [mergeTieBreakA]
  · rw [merge_eq]
    simp [mergeRec, mergeTieBreakA]

/-- C4 (amended): when the disjointness precondition is violated and the two
current elements are equal, `merge` deterministically takes `b`'s element
first (tie-break policy: prefer `b` on equality) and still makes forward
progress, returning a result rather than looping. -/
theorem merge_tie_prefers_b (x : PageId) (as bs : List PageId) :
    merge (x :: as) (x :: bs) = some (x :: mergeRec (x :: as) bs) := by
  rw [merge_eq]
  congr 1
  simp only [mergeRec]
  rw [if_neg (lt_irrefl x)]

/-- C5: merging with an empty input returns the other input unchanged. -/
theorem merge_empty_identity (a b : List PageId)
    (ha : List.Sorted (· < ·) a) (hb : List.Sorted (· < ·) b) :
    merge a [] = some a ∧ merge [] b = some b := by
  constructor
  · rw [merge_eq, mergeRec_nil_right]
  · rw [merge_eq]
    simp [mergeRec]

/-- Witness for C5 at `a = [3, 4]`, `b = [8]`. -/
theorem merge_empty_identity_witness :
    List.Sorted (· < ·) ([3, 4] : List PageId) ∧
      List.Sorted (· < ·) ([8] : List PageId) ∧
      (merge [3, 4] [] = some [3, 4] ∧ merge [] [8] = some [8]) :=
  ⟨by decide, by decide, merge_empty_identity [3, 4] [8] (by decide) (by decide)⟩

/-- C6: for arbitrary inputs (no sortedness or disjointness assumed), every
access `merge` and `merge_page_ids` perform is in bounds: both functions
return a result (`some`) instead of hitting the `none` that models a Rust
panic, when the destination buffer has length `len(a) + len(b)`. -/
theorem merge_accesses_in_bounds (a b : List PageId) :
    (∃ c, merge_page_ids (initZeros (a.length + b.length)) a b = some c) ∧
    ∃ c, merge a b = some c :=
  ⟨⟨mergeRec a b, merge_page_ids_spec _ a b (initZeros_length _)⟩,
   ⟨mergeRec a b, merge_eq a b⟩⟩

/-- C7: for valid ascending disjoint inputs, `merge` is commutative in
content: `merge(a, b)` and `merge(b, a)` hold the same multiset of
`PageId`s. -/
theorem merge_comm_content (a b : List PageId)
    (ha : List.Sorted (· < ·) a) (hb : List.Sorted (· < ·) b)
    (hdisj : ∀ x, x ∈ a → x ∉ b) :
    ∃ c d, merge a b = some c ∧ merge b a = some d ∧ c.Perm d :=
  ⟨mergeRec a b, mergeRec b a, merge_eq a b, merge_eq b a,
    (mergeRec_perm a b).trans (List.perm_append_comm.trans (mergeRec_perm b a).symm)⟩

/-- Witness for C7 at `a = [1, 3]`, `b = [2]`. -/
theorem merge_comm_content_witness :
    List.Sorted (· < ·) ([1, 3] : List PageId) ∧
      List.Sorted (· < ·) ([2] : List PageId) ∧
      (∀ x, x ∈ ([1, 3] : List PageId) → x ∉ ([2] : List PageId)) ∧
      ∃ c d, merge [1, 3] [2] = some c ∧ merge [2] [1, 3] = some d ∧ c.Perm d :=
  ⟨by decide, by decide, by decide,
    merge_comm_content [1, 3] [2] (by decide) (by decide) (by decide)⟩

/-- C8: the two concrete scenarios of the spec (and of the source's own
test `test_merge_page_ids`). -/
theorem merge_concrete_scenarios :
    merge [4, 5, 6, 10, 11, 12, 13, 27] [1, 3, 8, 9, 25, 30] =
      some [1, 3, 4, 5, 6, 8, 9, 10, 11, 12, 13, 25, 27, 30] ∧
    merge [4, 5, 6, 10, 11, 12, 13, 27, 35, 36] [8, 9, 25, 30] =
      some [4, 5, 6, 8, 9, 10, 11, 12, 13, 25, 27, 30, 35, 36] := by
  constructor <;>
  · rw [merge_eq]
    simp [mergeRec]

/-- C10: with no precondition at all, `merge(a, b)` succeeds with a result of
length `len(a) + len(b)` that is a permutation of `a ++ b` (each element
appears exactly as often as in the inputs). -/
theorem merge_any_inputs_perm (a b : List PageId) :
    ∃ c, merge a b = some c ∧ c.length = a.length + b.length ∧ c.Perm (a ++ b) :=
  ⟨mergeRec a b, merge_eq a b, mergeRec_length a b, mergeRec_perm a b⟩

/-- C2: `key(element)` returns exactly the `key_size` bytes starting at
offset `pos` of the element-relative byte view (the view whose index 0 is
the start of the element's own record), and `value(element)` the
`value_size` bytes of the stored value; writing a key or value of length
`L` at that offset and reading it back through the view yields exactly the
original `L` bytes. -/
theorem leaf_key_value_roundtrip (e : LeafPageElement) (buf : List Nat) :
    (e.pos + e.key_size ≤ buf.length →
      e.key buf = some ((buf.drop e.pos).take e.key_size) ∧
      ((buf.drop e.pos).take e.key_size).length = e.key_size) ∧
    (∀ k buf2, k.length = e.key_size → writeBytes buf e.pos k = some buf2 →
      e.key buf2 = some k) ∧
    (∀ v buf2, v.length = e.value_size → writeBytes buf e.pos v = some buf2 →
      e.value buf2 = some v) := by
  refine ⟨?_, ?_, ?_⟩
  · intro h
    constructor
    · unfold LeafPageElement.key sliceRange
      rw [if_pos ⟨Nat.le_add_right _ _, h⟩]
      congr 1
      rw [List.drop_take]
      congr 1
      omega
    · rw [List.length_take, List.length_drop]
      omega
  · intro k buf2 hk hw
    unfold LeafPageElement.key
    rw [← hk]
    exact slice_after_write buf k buf2 e.pos hw
  · intro v buf2 hv hw
    unfold LeafPageElement.value
    rw [← hv]
    exact slice_after_write buf v buf2 e.pos hw

/-- Witness for C2 at `e = {flag 0, pos 2, key_size 3, value_size 2}` over a
six-byte view: reading the key span, and round-tripping a key `[7, 8, 9]`
and a value `[4, 5]` written at offset 2. -/
theorem leaf_key_value_roundtrip_witness :
    ((2 : Nat) + 3 ≤ ([0, 0, 0, 0, 0, 0] : List Nat).length) ∧
    (([7, 8, 9] : List Nat).length = 3) ∧
    (writeBytes [0, 0, 0, 0, 0, 0] 2 [7, 8, 9] = some [0, 0, 7, 8, 9, 0]) ∧
    (([4, 5] : List Nat).length = 2) ∧
    (writeBytes [0, 0, 0, 0, 0, 0] 2 [4, 5] = some [0, 0, 4, 5, 0, 0]) ∧
    ((⟨0, 2, 3, 2, 0⟩ : LeafPageElement).key [0, 0, 0, 0, 0, 0] =
        some ((([0, 0, 0, 0, 0, 0] : List Nat).drop 2).take 3) ∧
      ((([0, 0, 0, 0, 0, 0] : List Nat).drop 2).take 3).length = 3) ∧
    ((⟨0, 2, 3, 2, 0⟩ : LeafPageElement).key [0, 0, 7, 8, 9, 0] = some [7, 8, 9]) ∧
    ((⟨0, 2, 3, 2, 0⟩ : LeafPageElement).value [0, 0, 4, 5, 0, 0] = some [4, 5]) :=
  ⟨by decide, by decide, by decide, by decide, by decide,
    (leaf_key_value_roundtrip ⟨0, 2, 3, 2, 0⟩ [0, 0, 0, 0, 0, 0]).1 (by decide),
    (leaf_key_value_roundtrip ⟨0, 2, 3, 2, 0⟩ [0, 0, 0, 0, 0, 0]).2.1 [7, 8, 9]
      [0, 0, 7, 8, 9, 0] (by decide) (by decide),
    (leaf_key_value_roundtrip ⟨0, 2, 3, 2, 0⟩ [0, 0, 0, 0, 0, 0]).2.2 [4, 5]
      [0, 0, 4, 5, 0, 0] (by decide) (by decide)⟩

/-- C3: for a valid branch or leaf page (element array of length `count`),
`elements()` is `none` exactly when `count = 0`, and otherwise yields the
full ordered array of exactly `count` records with
`elements()[i] = element(i)` for every `i < count`. -/
theorem page_elements_spec (p : Page)
    (hleaf : p.leafBody.length = p.count)
    (hbranch : p.branchBody.length = p.count) :
    (p.leaf_page_elements = none ↔ p.count = 0) ∧
    (p.branch_page_elements = none ↔ p.count = 0) ∧
    (∀ es, p.leaf_page_elements = some es →
      es.length = p.count ∧ ∀ i, i < p.count → es.get? i = p.leaf_page_element i) ∧
    (∀ es, p.branch_page_elements = some es →
      es.length = p.count ∧ ∀ i, i < p.count → es.get? i = p.branch_page_element i) := by
  refine ⟨?_, ?_, ?_, ?_⟩
  · unfold Page.leaf_page_elements
    by_cases h : p.count = 0 <;> simp [h]
  · unfold Page.branch_page_elements
    by_cases h : p.count = 0 <;> simp [h]
  · intro es hes
    unfold Page.leaf_page_elements at hes
    by_cases h : p.count = 0
    · rw [if_pos h] at hes
      exact Option.noConfusion hes
    · rw [if_neg h] at hes
      injection hes with hes
      subst hes
      exact ⟨hleaf, fun i _ => rfl⟩
  · intro es hes
    unfold Page.branch_page_elements at hes
    by_cases h : p.count = 0
    · rw [if_pos h] at hes
      exact Option.noConfusion hes
    · rw [if_neg h] at hes
      injection hes with hes
      subst hes
      exact ⟨hbranch, fun i _ => rfl⟩

/-- Witness for C3 on a concrete one-element page. -/
theorem page_elements_spec_witness :
    ((⟨7, 2, 1, 0, [⟨0, 16, 3, 4, 0⟩], [⟨16, 3, 9⟩]⟩ : Page).leafBody.length =
        (⟨7, 2, 1, 0, [⟨0, 16, 3, 4, 0⟩], [⟨16, 3, 9⟩]⟩ : Page).count) ∧
    ((⟨7, 2, 1, 0, [⟨0, 16, 3, 4, 0⟩], [⟨16, 3, 9⟩]⟩ : Page).branchBody.length =
        (⟨7, 2, 1, 0, [⟨0, 16, 3, 4, 0⟩], [⟨16, 3, 9⟩]⟩ : Page).count) ∧
    (((⟨7, 2, 1, 0, [⟨0, 16, 3, 4, 0⟩], [⟨16, 3, 9⟩]⟩ : Page).leaf_page_elements = none ↔
        (⟨7, 2, 1, 0, [⟨0, 16, 3, 4, 0⟩], [⟨16, 3, 9⟩]⟩ : Page).count = 0) ∧
      ((⟨7, 2, 1, 0, [⟨0, 16, 3, 4, 0⟩], [⟨16, 3, 9⟩]⟩ : Page).branch_page_elements = none ↔
        (⟨7, 2, 1, 0, [⟨0, 16, 3, 4, 0⟩], [⟨16, 3, 9⟩]⟩ : Page).count = 0) ∧
      (∀ es, (⟨7, 2, 1, 0, [⟨0, 16, 3, 4, 0⟩], [⟨16, 3, 9⟩]⟩ : Page).leaf_page_elements = some es →
        es.length = (⟨7, 2, 1, 0, [⟨0, 16, 3, 4, 0⟩], [⟨16, 3, 9⟩]⟩ : Page).count ∧
        ∀ i, i < (⟨7, 2, 1, 0, [⟨0, 16, 3, 4, 0⟩], [⟨16, 3, 9⟩]⟩ : Page).count →
          es.get? i = (⟨7, 2, 1, 0, [⟨0, 16, 3, 4, 0⟩], [⟨16, 3, 9⟩]⟩ : Page).leaf_page_element i) ∧
      (∀ es, (⟨7, 2, 1, 0, [⟨0, 16, 3, 4, 0⟩], [⟨16, 3, 9⟩]⟩ : Page).branch_page_elements = some es →
        es.length = (⟨7, 2, 1, 0, [⟨0, 16, 3, 4, 0⟩], [⟨16, 3, 9⟩]⟩ : Page).count ∧
        ∀ i, i < (⟨7, 2, 1, 0, [⟨0, 16, 3, 4, 0⟩], [⟨16, 3, 9⟩]⟩ : Page).count →
          es.get? i = (⟨7, 2, 1, 0, [⟨0, 16, 3, 4, 0⟩], [⟨16, 3, 9⟩]⟩ : Page).branch_page_element i)) :=
  ⟨rfl, rfl, page_elements_spec ⟨7, 2, 1, 0, [⟨0, 16, 3, 4, 0⟩], [⟨16, 3, 9⟩]⟩ rfl rfl⟩

/-- C9: `value()` slices `[pos, pos + value_size)` of the element-relative
byte view — the same base offset `pos` as `key()`, not
`pos + key_size` — so whenever `key_size = value_size` the two accessors
return exactly the same bytes. -/
theorem leaf_value_same_span_as_key (e : LeafPageElement) (buf : List Nat) :
    (∀ s, e.value buf = some s → s = (buf.take (e.pos + e.value_size)).drop e.pos) ∧
    (e.key_size = e.value_size → e.value buf = e.key buf) := by
  constructor
  · intro s hs
    unfold LeafPageElement.value sliceRange at hs
    by_cases h : e.pos ≤ e.pos + e.value_size ∧ e.pos + e.value_size ≤ buf.length
    · rw [if_pos h] at hs
      injection hs with hs
      exact hs.symm
    · rw [if_neg h] at hs
      exact Option.noConfusion hs
  · intro h
    unfold LeafPageElement.key LeafPageElement.value
    rw [h]

/-- Witness for C9 at `e = {flag 0, pos 1, key_size 2, value_size 2}` over
the view `[10, 11, 12, 13]`. -/
theorem leaf_value_same_span_as_key_witness :
    (([11, 12] : List Nat) = (([10, 11, 12, 13] : List Nat).take (1 + 2)).drop 1) ∧
    ((⟨0, 1, 2, 2, 0⟩ : LeafPageElement).value [10, 11, 12, 13] =
      (⟨0, 1, 2, 2, 0⟩ : LeafPageElement).key [10, 11, 12, 13]) :=
  ⟨(leaf_value_same_span_as_key ⟨0, 1, 2, 2, 0⟩ [10, 11, 12, 13]).1 [11, 12] (by decide),
    (leaf_value_same_span_as_key ⟨0, 1, 2, 2, 0⟩ [10, 11, 12, 13]).2 (by decide)⟩
